import Mathlib

/-!
Verification of the `Logger.js` block-extraction script
(`src/node/src/utils/script.py`).

The script reads `Logger.js`, splits it into lines, scans for the first
line containing the substring `static async writeLog`, then for the first
later line whose stripped content starts with `static async writeLogs`,
and prints the slice of lines between the two (end exclusive).

Strings are embedded as `List Char`; the file content, the line-splitting
performed by `Path.read_text()` followed by `str.splitlines()`, the scan
loop, the slice and the join are each translated directly from the source.
-/

namespace Script

/-- The start marker: the Python expression `'static async writeLog' in line`
searches for this substring (script.py line 7). -/
def startMark : List Char := "static async writeLog".data

/-- The end marker: `line.strip().startswith('static async writeLogs')`
(script.py line 9). -/
def endMark : List Char := "static async writeLogs".data

/-- Characters stripped by Python's `str.strip()` with no argument:
exactly the characters `c` with `c.isspace()` true (ASCII whitespace,
the C1 separators 0x1c-0x1f, NEL, NBSP and the Unicode space and line
separators). -/
def isPySpace (c : Char) : Bool :=
  c.toNat = 32 || (9 ≤ c.toNat && c.toNat ≤ 13) ||
  (28 ≤ c.toNat && c.toNat ≤ 31) || c.toNat = 0x85 || c.toNat = 0xa0 ||
  c.toNat = 0x1680 || (0x2000 ≤ c.toNat && c.toNat ≤ 0x200a) ||
  c.toNat = 0x2028 || c.toNat = 0x2029 || c.toNat = 0x202f ||
  c.toNat = 0x205f || c.toNat = 0x3000

/-- Line boundaries recognised by Python's `str.splitlines()`:
LF, CR (CRLF is one boundary, handled in `pySplitlinesAux`), VT, FF,
FS, GS, RS, NEL, LS, PS. -/
def isLineBreak (c : Char) : Bool :=
  c.toNat = 10 || c.toNat = 13 || c.toNat = 11 || c.toNat = 12 ||
  c.toNat = 28 || c.toNat = 29 || c.toNat = 30 || c.toNat = 0x85 ||
  c.toNat = 0x2028 || c.toNat = 0x2029

/-- Python's substring test `needle in hay` on strings. -/
def containsSub (needle : List Char) : List Char → Bool
  | [] => needle.isEmpty
  | c :: rest => needle.isPrefixOf (c :: rest) || containsSub needle rest

/-- Python's `str.strip()`: drop whitespace from both ends. -/
def pyStrip (l : List Char) : List Char :=
  List.rdropWhile isPySpace (List.dropWhile isPySpace l)

/-- The scan's start test, `'static async writeLog' in line` (script.py line 7). -/
def containsStart (line : List Char) : Bool := containsSub startMark line

/-- The scan's end test,
`line.strip().startswith('static async writeLogs')` (script.py line 9). -/
def isEndLine (line : List Char) : Bool :=
  endMark.isPrefixOf (pyStrip line)

/-- The scan loop of script.py lines 4-11: `start` and `end` begin as
`None`; the first line containing the start marker (while `start` is
still `None`) sets `start`; afterwards the first line passing the end
test sets `end` and breaks.  Arguments: remaining lines, current index
`i`, current `start`.  Returns the final `(start, end)` pair, `end`
being `none` when the loop finishes without a break. -/
def scan : List (List Char) → Nat → Option Nat → Option Nat × Option Nat
  | [], _, st => (st, none)
  | line :: rest, i, st =>
    if containsStart line && st.isNone then
      scan rest (i + 1) (some i)
    else if st.isSome && isEndLine line then
      (st, some i)
    else
      scan rest (i + 1) st

/-- The `(start, end)` pair produced by running the loop over the whole
line sequence. -/
def scanResult (lines : List (List Char)) : Option Nat × Option Nat :=
  scan lines 0 none

/-- The final value of the `start` variable (possibly `None`). -/
def startIndexOpt (lines : List (List Char)) : Option Nat :=
  (scanResult lines).1

/-- The final value of the `end` variable after the
`if end is None: end = len(lines)` default (script.py lines 12-13). -/
def endIndex (lines : List (List Char)) : Nat :=
  ((scanResult lines).2).getD lines.length

/-- Python's slice `l[s:e]` for `s` either `None` or a non-negative
in-range index and `e` a non-negative bound: `None` behaves as the start
of the sequence. -/
def pySlice (s : Option Nat) (e : Nat) (l : List (List Char)) :
    List (List Char) :=
  (l.take e).drop (s.getD 0)

/-- The extracted block `lines[start:end]` (script.py line 14). -/
def extractedBlock (lines : List (List Char)) : List (List Char) :=
  pySlice (startIndexOpt lines) (endIndex lines) lines

/-- The printed text `'\n'.join(lines[start:end])` (script.py line 14);
`print` appends one final newline, not modelled. -/
def programOutput (lines : List (List Char)) : List Char :=
  List.intercalate ['\n'] (extractedBlock lines)

/-- Worker for the universal-newline translation performed by
`Path.read_text()` (text mode, `newline=None`): `\r\n` and lone `\r`
become `\n`.  The Boolean flag records that the previous character was a
`\r` (already emitted as `\n`), so a directly following `\n` is
swallowed. -/
def univNewlinesAux : Bool → List Char → List Char
  | _, [] => []
  | afterCR, c :: rest =>
    if afterCR && c = '\n' then univNewlinesAux false rest
    else if c = '\r' then '\n' :: univNewlinesAux true rest
    else c :: univNewlinesAux false rest

/-- Universal-newline translation of the whole file content. -/
def univNewlines (content : List Char) : List Char :=
  univNewlinesAux false content

/-- Worker for `str.splitlines()`: `acc` holds the reversed characters of
the line being accumulated, the Boolean flag records that the previous
character was a `\r` whose line is already emitted, so a directly
following `\n` belongs to the same CRLF boundary.  A boundary character
ends a line; at the end of input a non-empty remainder becomes a final
line, but input ending exactly at a boundary yields no extra empty
line. -/
def pySplitlinesAux : Bool → List Char → List Char → List (List Char)
  | _, acc, [] => if acc.isEmpty then [] else [acc.reverse]
  | afterCR, acc, c :: rest =>
    if afterCR && c = '\n' then pySplitlinesAux false acc rest
    else if c = '\r' then acc.reverse :: pySplitlinesAux true [] rest
    else if isLineBreak c then acc.reverse :: pySplitlinesAux false [] rest
    else pySplitlinesAux false (c :: acc) rest

/-- Python's `str.splitlines()`. -/
def pySplitlines (content : List Char) : List (List Char) :=
  pySplitlinesAux false [] content

/-- The line sequence the program scans:
`path.read_text().splitlines()` (script.py line 3). -/
def fileLines (content : List Char) : List (List Char) :=
  pySplitlines (univNewlines content)

/-- Error kinds of the script: `Path.read_text()` raises
`FileNotFoundError` / `OSError` when `Logger.js` is missing or
unreadable; the script installs no handler, so the exception is fatal. -/
inductive PyErr
  | fileNotFound
deriving DecidableEq

/-- The whole program run on an abstract filesystem: `none` means
`Logger.js` is absent or unreadable, in which case `read_text()` raises
and the script terminates before any `print` (script.py lines 2-3);
otherwise the content is split, scanned, sliced and printed. -/
def runProgram : Option (List Char) → Except PyErr (List Char)
  | none => Except.error PyErr.fileNotFound
  | some content => Except.ok (programOutput (fileLines content))

/-- Modelled from the spec's words for comparison with the code's
splitting (claim about line-feed-delimited splitting): split the content
on line-feed boundaries into one string per line of the file; a
terminating line feed closes the last line rather than opening an empty
one, so the empty file has no lines. -/
def lfLines : List Char → List (List Char)
  | [] => []
  | c :: rest =>
    if c = '\n' then [] :: lfLines rest
    else
      match lfLines rest with
      | [] => [[c]]
      | l :: ls => (c :: l) :: ls

/-- Helper describing how an accumulated partial line is glued onto the
front of a split: used to state the `pySplitlinesAux` invariant. -/
def consGlue (acc : List Char) : List (List Char) → List (List Char)
  | [] => if acc.isEmpty then [] else [acc.reverse]
  | l :: ls => (acc.reverse ++ l) :: ls

/-- The example scenario of the specification: a start line at index 1,
an indented end line at index 3. -/
def specExampleLines : List (List Char) :=
  ["A".data, "static async writeLog X() \x7b".data, "  body".data,
   "  static async writeLogs() \x7b".data, "C".data]

example : containsSub "bc".data "abcd".data = true := by decide
example : containsSub "bd".data "abcd".data = false := by decide
example : pyStrip "  ab c  ".data = "ab c".data := by decide
example : isEndLine "   static async writeLogs() \x7b".data = true := by decide
example : isEndLine "static async writeLog() \x7b".data = false := by decide
example : containsStart "x static async writeLog y".data = true := by decide
example :
    fileLines "a\rb\nc\r\nd".data = [['a'], ['b'], ['c'], ['d']] := by decide
example : fileLines "a\n".data = [['a']] := by decide
example : lfLines "a\n\nb".data = [['a'], [], ['b']] := by decide
example : lfLines "a\n".data = [['a']] := by decide
example :
    scanResult [['x'], "static async writeLog f".data,
      "  static async writeLogs".data] = (some 1, some 2) := by decide
example :
    programOutput [['a'], ['b']] = ['a', '\n', 'b'] := by decide
example : pySplitlines "a\x0bb\x85c".data = [['a'], ['b'], ['c']] := by decide
example : pySplitlines "a\r".data = [['a']] := by decide
example : pySplitlines "\r\n\n".data = [[], []] := by decide

/-! ### Lemmas about the scan loop -/

theorem scan_nil (i : Nat) (st : Option Nat) :
    scan [] i st = (st, none) := rfl

theorem scan_cons_start (line : List Char) (rest : List (List Char))
    (i : Nat) (h : containsStart line = true) :
    scan (line :: rest) i none = scan rest (i + 1) (some i) := by
  simp [scan, h]

theorem scan_cons_skip (line : List Char) (rest : List (List Char))
    (i : Nat) (h : containsStart line = false) :
    scan (line :: rest) i none = scan rest (i + 1) none := by
  simp [scan, h]

theorem scan_cons_end (line : List Char) (rest : List (List Char))
    (i s : Nat) (h : isEndLine line = true) :
    scan (line :: rest) i (some s) = (some s, some i) := by
  simp [scan, h]

theorem scan_cons_noend (line : List Char) (rest : List (List Char))
    (i s : Nat) (h : isEndLine line = false) :
    scan (line :: rest) i (some s) = scan rest (i + 1) (some s) := by
  simp [scan, h]

theorem scan_append_none (pre : List (List Char))
    (h : ∀ l ∈ pre, containsStart l = false) :
    ∀ (i : Nat) (rest : List (List Char)),
      scan (pre ++ rest) i none = scan rest (i + pre.length) none := by
  induction pre with
  | nil => intro i rest; simp
  | cons p pre ih =>
    intro i rest
    have hp : containsStart p = false := h p (List.mem_cons_self p pre)
    have h' : ∀ l ∈ pre, containsStart l = false :=
      fun l hl => h l (List.mem_cons_of_mem p hl)
    rw [List.cons_append, scan_cons_skip p _ i hp, ih h' (i + 1) rest]
    congr 1
    simp [List.length_cons]
    omega

theorem scan_append_some (pre : List (List Char))
    (h : ∀ l ∈ pre, isEndLine l = false) :
    ∀ (i s : Nat) (rest : List (List Char)),
      scan (pre ++ rest) i (some s) = scan rest (i + pre.length) (some s) := by
  induction pre with
  | nil => intro i s rest; simp
  | cons p pre ih =>
    intro i s rest
    have hp : isEndLine p = false := h p (List.mem_cons_self p pre)
    have h' : ∀ l ∈ pre, isEndLine l = false :=
      fun l hl => h l (List.mem_cons_of_mem p hl)
    rw [List.cons_append, scan_cons_noend p _ i s hp, ih h' (i + 1) s rest]
    congr 1
    simp [List.length_cons]
    omega

theorem scan_none_of_no_start (ls : List (List Char))
    (h : ∀ l ∈ ls, containsStart l = false) :
    ∀ i : Nat, scan ls i none = (none, none) := by
  intro i
  have := scan_append_none ls h i []
  simpa using this

theorem scan_some_of_no_end (ls : List (List Char))
    (h : ∀ l ∈ ls, isEndLine l = false) :
    ∀ (i s : Nat), scan ls i (some s) = (some s, none) := by
  intro i s
  have := scan_append_some ls h i s []
  simpa using this

theorem scan_fst_some (ls : List (List Char)) :
    ∀ (i s : Nat), (scan ls i (some s)).1 = some s := by
  induction ls with
  | nil => intro i s; rfl
  | cons line rest ih =>
    intro i s
    cases hE : isEndLine line with
    | true => rw [scan_cons_end line rest i s hE]
    | false => rw [scan_cons_noend line rest i s hE]; exact ih (i + 1) s

/-- `l.drop i` starts with the `i`-th element when `i` is in range. -/
theorem drop_eq_getD_cons {α : Type} (d : α) :
    ∀ (l : List α) (i : Nat), i < l.length →
      l.drop i = l.getD i d :: l.drop (i + 1) := by
  intro l
  induction l with
  | nil => intro i hi; simp at hi
  | cons a t ih =>
    intro i hi
    cases i with
    | zero => simp [List.getD]
    | succ k =>
      have hk : k < t.length := by simp [List.length_cons] at hi; omega
      simpa [List.getD] using ih k hk

/-- Splitting the line list at the first start-marker line: the scan over
the whole list reaches the suffix after that line with `start` set. -/
theorem scanResult_phase1 (lines : List (List Char)) (i : Nat)
    (hi : i < lines.length)
    (hstart : containsStart (lines.getD i []) = true)
    (hbefore : ∀ l ∈ lines.take i, containsStart l = false) :
    scanResult lines = scan (lines.drop (i + 1)) (i + 1) (some i) := by
  have hdecomp :
      lines = lines.take i ++ (lines.getD i [] :: lines.drop (i + 1)) := by
    conv_lhs => rw [← List.take_append_drop i lines]
    rw [drop_eq_getD_cons [] lines i hi]
  have hlen : (lines.take i).length = i :=
    List.length_take_of_le (Nat.le_of_lt hi)
  calc scanResult lines
      = scan (lines.take i ++ (lines.getD i [] :: lines.drop (i + 1)))
          0 none := by rw [scanResult, ← hdecomp]
    _ = scan (lines.getD i [] :: lines.drop (i + 1))
          (0 + (lines.take i).length) none :=
        scan_append_none (lines.take i) hbefore 0 _
    _ = scan (lines.getD i [] :: lines.drop (i + 1)) i none := by
        rw [hlen]; simp
    _ = scan (lines.drop (i + 1)) (i + 1) (some i) :=
        scan_cons_start _ _ i hstart

/-- Full characterisation of the scan when `i` is the first start-marker
line and `j` the first end line after it: the loop returns `(i, j)`. -/
theorem scanResult_of_first_start_end (lines : List (List Char))
    (i j : Nat) (hi : i < lines.length) (hj : j < lines.length)
    (hij : i < j)
    (hstart : containsStart (lines.getD i []) = true)
    (hbefore : ∀ l ∈ lines.take i, containsStart l = false)
    (hend : isEndLine (lines.getD j []) = true)
    (hmid : ∀ l ∈ (lines.take j).drop (i + 1), isEndLine l = false) :
    scanResult lines = (some i, some j) := by
  rw [scanResult_phase1 lines i hi hstart hbefore]
  have htj : (lines.take j).length = j :=
    List.length_take_of_le (Nat.le_of_lt hj)
  have hsplit : lines.drop (i + 1) =
      (lines.take j).drop (i + 1) ++ (lines.getD j [] :: lines.drop (j + 1)) := by
    conv_lhs => rw [← List.take_append_drop j lines]
    rw [List.drop_append_of_le_length (by omega),
      drop_eq_getD_cons [] lines j hj]
  have hmidlen : ((lines.take j).drop (i + 1)).length = j - (i + 1) := by
    rw [List.length_drop, htj]
  rw [hsplit,
    scan_append_some _ hmid (i + 1) i _,
    scan_cons_end _ _ _ i hend, hmidlen]
  congr 2
  omega

/-- Index bounds maintained by the scan loop: a returned start index is
below `i + length`, and a returned end index lies strictly after the
(necessarily returned) start index and below `i + length`. -/
theorem scan_bounds (ls : List (List Char)) :
    ∀ (i : Nat) (st : Option Nat),
      (∀ a, st = some a → a < i) →
      (∀ a, (scan ls i st).1 = some a → a < i + ls.length) ∧
      (∀ b, (scan ls i st).2 = some b →
        ∃ a, (scan ls i st).1 = some a ∧ a < b ∧ b < i + ls.length) := by
  induction ls with
  | nil =>
    intro i st hpre
    refine ⟨fun a ha => ?_, fun b hb => ?_⟩
    · have := hpre a ha
      simp only [List.length_nil]
      omega
    · simp [scan] at hb
  | cons line rest ih =>
    intro i st hpre
    cases st with
    | none =>
      cases hC : containsStart line with
      | true =>
        rw [scan_cons_start line rest i hC]
        have hpre' : ∀ a, (some i : Option Nat) = some a → a < i + 1 := by
          intro a ha
          cases ha
          omega
        obtain ⟨ih1, ih2⟩ := ih (i + 1) (some i) hpre'
        refine ⟨fun a ha => ?_, fun b hb => ?_⟩
        · have := ih1 a ha
          simp only [List.length_cons]
          omega
        · obtain ⟨a, ha, hab, hblen⟩ := ih2 b hb
          exact ⟨a, ha, hab, by simp only [List.length_cons]; omega⟩
      | false =>
        rw [scan_cons_skip line rest i hC]
        have hpre' : ∀ a, (none : Option Nat) = some a → a < i + 1 := by
          intro a ha
          cases ha
        obtain ⟨ih1, ih2⟩ := ih (i + 1) none hpre'
        refine ⟨fun a ha => ?_, fun b hb => ?_⟩
        · have := ih1 a ha
          simp only [List.length_cons]
          omega
        · obtain ⟨a, ha, hab, hblen⟩ := ih2 b hb
          exact ⟨a, ha, hab, by simp only [List.length_cons]; omega⟩
    | some s =>
      have hs : s < i := hpre s rfl
      cases hE : isEndLine line with
      | true =>
        rw [scan_cons_end line rest i s hE]
        refine ⟨fun a ha => ?_, fun b hb => ?_⟩
        · cases ha
          simp only [List.length_cons]
          omega
        · cases hb
          exact ⟨s, rfl, hs, by simp only [List.length_cons]; omega⟩
      | false =>
        rw [scan_cons_noend line rest i s hE]
        have hpre' : ∀ a, (some s : Option Nat) = some a → a < i + 1 := by
          intro a ha
          cases ha
          omega
        obtain ⟨ih1, ih2⟩ := ih (i + 1) (some s) hpre'
        refine ⟨fun a ha => ?_, fun b hb => ?_⟩
        · have := ih1 a ha
          simp only [List.length_cons]
          omega
        · obtain ⟨a, ha, hab, hblen⟩ := ih2 b hb
          exact ⟨a, ha, hab, by simp only [List.length_cons]; omega⟩

/-- The loop can only have set `end` if it also set `start`. -/
theorem scan_snd_isSome (ls : List (List Char)) :
    ∀ (i : Nat) (st : Option Nat),
      ((scan ls i st).2).isSome = true → ((scan ls i st).1).isSome = true := by
  induction ls with
  | nil => intro i st h; simp [scan] at h
  | cons line rest ih =>
    intro i st h
    cases st with
    | none =>
      cases hC : containsStart line with
      | true =>
        rw [scan_cons_start line rest i hC] at h ⊢
        exact ih (i + 1) (some i) h
      | false =>
        rw [scan_cons_skip line rest i hC] at h ⊢
        exact ih (i + 1) none h
    | some s =>
      cases hE : isEndLine line with
      | true => rw [scan_cons_end line rest i s hE]; rfl
      | false =>
        rw [scan_cons_noend line rest i s hE] at h ⊢
        exact ih (i + 1) (some s) h

/-! ### Lemmas about the string predicates -/

/-- Python's `in` test agrees with list-infix containment. -/
theorem containsSub_eq_true_iff (needle : List Char) :
    ∀ hay : List Char, containsSub needle hay = true ↔ needle <:+: hay := by
  intro hay
  induction hay with
  | nil =>
    simp [containsSub, List.isEmpty_iff]
  | cons c t ih =>
    simp [containsSub, List.isPrefixOf_iff_prefix, ih, List.infix_cons_iff]

/-- Stripping whitespace yields a contiguous piece of the original line. -/
theorem pyStrip_infix_self (l : List Char) : pyStrip l <:+: l := by
  have h1 : List.rdropWhile isPySpace (List.dropWhile isPySpace l) <+:
      List.dropWhile isPySpace l := List.rdropWhile_prefix _ _
  have h2 : List.dropWhile isPySpace l <:+ l := List.dropWhile_suffix _
  exact List.IsInfix.trans ( List.IsPrefix.isInfix h1) ( List.IsSuffix.isInfix h2)

theorem dropWhile_append_all (p : Char → Bool) (l t : List Char)
    (h : ∀ c ∈ l, p c = true) :
    List.dropWhile p (l ++ t) = List.dropWhile p t := by
  induction l with
  | nil => rfl
  | cons c l ih =>
    have hc := h c (List.mem_cons_self c l)
    have h' := fun x hx => h x (List.mem_cons_of_mem c hx)
    simp [List.dropWhile_cons, hc, ih h']

/-- A list left fixed by `rdropWhile` stays a prefix after anything is
appended to it and the result is right-stripped. -/
theorem isPrefix_rdropWhile_append (p : Char → Bool) (em : List Char)
    (hem : List.rdropWhile p em = em) :
    ∀ r : List Char, em <+: List.rdropWhile p (em ++ r) := by
  intro r
  induction r using List.reverseRecOn with
  | nil =>
    rw [List.append_nil, hem]
  | append_singleton r' a ih =>
    rw [← List.append_assoc, List.rdropWhile_concat]
    by_cases hp : p a = true
    · rw [if_pos hp]
      exact ih
    · rw [if_neg hp, List.append_assoc]
      exact List.prefix_append em _

/-- Any line made of leading whitespace followed by text starting with the
end marker passes the scan's end test. -/
theorem isEndLine_ws_append (ws txt : List Char)
    (hws : ∀ c ∈ ws, isPySpace c = true) (htxt : endMark <+: txt) :
    isEndLine (ws ++ txt) = true := by
  obtain ⟨r, rfl⟩ := htxt
  unfold isEndLine pyStrip
  rw [ List.isPrefixOf_iff_prefix, dropWhile_append_all isPySpace ws _ hws]
  have hhead : endMark ++ r = 's' :: ("tatic async writeLogs".data ++ r) := rfl
  rw [hhead, List.dropWhile_cons, if_neg (by decide : ¬isPySpace 's' = true),
    ← hhead]
  exact isPrefix_rdropWhile_append isPySpace endMark (by decide) r

/-- A line passing the end test also contains the start substring
(`static async writeLog` is a prefix of `static async writeLogs`). -/
theorem containsStart_of_isEndLine (line : List Char)
    (h : isEndLine line = true) : containsStart line = true := by
  have h1 : endMark <+: pyStrip line := by
    unfold isEndLine at h
    exact List.isPrefixOf_iff_prefix.mp h
  have h2 : startMark <+: endMark := by decide
  have h3 : startMark <+: pyStrip line := h2.trans h1
  exact (containsSub_eq_true_iff startMark line).mpr
    (List.IsInfix.trans ( List.IsPrefix.isInfix h3) (pyStrip_infix_self line))

/-! ### Lemmas relating the code's line splitting to line-feed splitting -/

theorem univNewlinesAux_eq_self (content : List Char)
    (h : ∀ c ∈ content, c ≠ '\r') :
    univNewlinesAux false content = content := by
  induction content with
  | nil => rfl
  | cons c rest ih =>
    have hc : c ≠ '\r' := h c (List.mem_cons_self c rest)
    have h' := fun x hx => h x (List.mem_cons_of_mem c hx)
    simp [univNewlinesAux, hc, ih h']

theorem pySplitlinesAux_only_lf (content : List Char)
    (h : ∀ c ∈ content, isLineBreak c = true → c = '\n') :
    ∀ acc : List Char,
      pySplitlinesAux false acc content = consGlue acc (lfLines content) := by
  induction content with
  | nil => intro acc; rfl
  | cons c rest ih =>
    intro acc
    have hrest := fun x hx hbx => h x (List.mem_cons_of_mem c hx) hbx
    by_cases hc : c = '\n'
    · subst hc
      have hstep : pySplitlinesAux false acc ('\n' :: rest) =
          acc.reverse :: pySplitlinesAux false [] rest := by
        have hlb : isLineBreak '\n' = true := by decide
        simp [pySplitlinesAux, hlb]
      rw [hstep, ih hrest []]
      cases hlf : lfLines rest with
      | nil => simp [lfLines, hlf, consGlue]
      | cons l ls => simp [lfLines, hlf, consGlue]
    · have hnb : isLineBreak c = false := by
        cases hb : isLineBreak c
        · rfl
        · exact absurd (h c (List.mem_cons_self c rest) hb) hc
      have hcr : c ≠ '\r' := by
        intro hcr
        rw [hcr] at hnb
        simp [isLineBreak] at hnb
      have hstep : pySplitlinesAux false acc (c :: rest) =
          pySplitlinesAux false (c :: acc) rest := by
        simp [pySplitlinesAux, hcr, hnb]
      rw [hstep, ih hrest (c :: acc)]
      cases hlf : lfLines rest with
      | nil => simp [lfLines, hc, hlf, consGlue]
      | cons l ls => simp [lfLines, hc, hlf, consGlue]

/-- On content whose only line-boundary characters are line feeds, the
code's splitting coincides with line-feed-delimited splitting. -/
theorem fileLines_eq_lfLines (content : List Char)
    (h : ∀ c ∈ content, isLineBreak c = true → c = '\n') :
    fileLines content = lfLines content := by
  have hnr : ∀ c ∈ content, c ≠ '\r' := by
    intro c hc hceq
    subst hceq
    have := h '\r' hc (by decide)
    simp at this
  unfold fileLines univNewlines pySplitlines
  rw [univNewlinesAux_eq_self content hnr,
    pySplitlinesAux_only_lf content h []]
  cases hlf : lfLines content with
  | nil => simp [consGlue]
  | cons l ls => simp [consGlue]

theorem getD_take {α : Type} (d : α) :
    ∀ (l : List α) (n i : Nat), i < n →
      (l.take n).getD i d = l.getD i d := by
  intro l
  induction l with
  | nil => intro n i h; simp
  | cons a t ih =>
    intro n i h
    cases n with
    | zero => omega
    | succ m =>
      cases i with
      | zero => simp
      | succ k =>
        simp only [List.take_succ_cons, List.getD_cons_succ]
        exact ih m k (by omega)

/-! ### The claims -/

/-- C1: for a line sequence whose first start-marker line is at index `i`
and whose first end line strictly after `i` is at index `j`, the program
output is exactly the lines at indices `i` through `j - 1`, in order,
joined with newline characters. -/
theorem C1_output_between_markers (lines : List (List Char)) (i j : Nat)
    (hi : i < lines.length) (hj : j < lines.length) (hij : i < j)
    (hstart : containsStart (lines.getD i []) = true)
    (hbefore : ∀ l ∈ lines.take i, containsStart l = false)
    (hend : isEndLine (lines.getD j []) = true)
    (hmid : ∀ l ∈ (lines.take j).drop (i + 1), isEndLine l = false) :
    programOutput lines = List.intercalate ['\n'] ((lines.take j).drop i) := by
  have hres := scanResult_of_first_start_end lines i j hi hj hij
    hstart hbefore hend hmid
  simp [programOutput, extractedBlock, pySlice, startIndexOpt, endIndex, hres]

theorem C1_output_between_markers_witness :
    programOutput specExampleLines =
      List.intercalate ['\n'] ((specExampleLines.take 3).drop 1) :=
  C1_output_between_markers specExampleLines 1 3 (by decide) (by decide)
    (by decide) (by decide) (by decide) (by decide) (by decide)

/-- C2 counterexample: on a file with no start-marker line the program
does not raise any error; `lines[None:end]` is a valid Python slice
starting at the beginning, so the program emits the entire file. -/
theorem C2_no_start_counterexample :
    (∀ l ∈ fileLines "hello".data, containsStart l = false) ∧
    runProgram (some "hello".data) = Except.ok "hello".data := by
  constructor
  · decide
  · rfl

/-- C2 amended: for every input file in which no line contains the start
substring, the scan leaves both indices unset, the `None` start behaves
as the start of the sequence, and the program emits the whole file
(joined with newlines) instead of raising an error. -/
theorem C2_no_start_outputs_whole_file (lines : List (List Char))
    (h : ∀ l ∈ lines, containsStart l = false) :
    scanResult lines = (none, none) ∧
    programOutput lines = List.intercalate ['\n'] lines := by
  have hres := scan_none_of_no_start lines h 0
  refine ⟨hres, ?_⟩
  simp [programOutput, extractedBlock, pySlice, startIndexOpt, endIndex,
    scanResult, hres]

theorem C2_no_start_outputs_whole_file_witness :
    scanResult [['a'], ['b']] = (none, none) ∧
    programOutput [['a'], ['b']] = List.intercalate ['\n'] [['a'], ['b']] :=
  C2_no_start_outputs_whole_file _ (by decide)

/-- C3: when the first start-marker line is at index `i` and no later
line passes the end test, the end index defaults to the number of lines
and the output is all lines from `i` through the end of the file. -/
theorem C3_no_end_extends_to_eof (lines : List (List Char)) (i : Nat)
    (hi : i < lines.length)
    (hstart : containsStart (lines.getD i []) = true)
    (hbefore : ∀ l ∈ lines.take i, containsStart l = false)
    (hnoend : ∀ l ∈ lines.drop (i + 1), isEndLine l = false) :
    endIndex lines = lines.length ∧
    programOutput lines = List.intercalate ['\n'] (lines.drop i) := by
  have hres : scanResult lines = (some i, none) := by
    rw [scanResult_phase1 lines i hi hstart hbefore]
    exact scan_some_of_no_end _ hnoend (i + 1) i
  constructor
  · simp [endIndex, hres]
  · simp [programOutput, extractedBlock, pySlice, startIndexOpt, endIndex,
      hres]

theorem C3_no_end_extends_to_eof_witness :
    endIndex ["static async writeLog f".data, "body".data] =
      (["static async writeLog f".data, "body".data] :
        List (List Char)).length ∧
    programOutput ["static async writeLog f".data, "body".data] =
      List.intercalate ['\n']
        ((["static async writeLog f".data, "body".data] :
          List (List Char)).drop 0) :=
  C3_no_end_extends_to_eof _ 0 (by decide) (by decide) (by decide) (by decide)

/-- C4: the start index is the index of the first line containing the
start substring; whatever the later lines contain (in particular further
start-marker matches), the start boundary is that first index. -/
theorem C4_first_start_wins (lines : List (List Char)) (i : Nat)
    (hi : i < lines.length)
    (hstart : containsStart (lines.getD i []) = true)
    (hbefore : ∀ l ∈ lines.take i, containsStart l = false) :
    startIndexOpt lines = some i := by
  unfold startIndexOpt
  rw [scanResult_phase1 lines i hi hstart hbefore]
  exact scan_fst_some _ (i + 1) i

theorem C4_first_start_wins_witness :
    startIndexOpt [['x'], "static async writeLog a".data,
      "static async writeLog b".data] = some 1 :=
  C4_first_start_wins _ 1 (by decide) (by decide) (by decide)

/-- C5 counterexample: the scanned line sequence is not line-feed
splitting: on the content `a\r b` (no line feed at all) the program
scans two lines, while line-feed-delimited splitting yields one. -/
theorem C5_lf_split_counterexample :
    fileLines "a\rb".data = [['a'], ['b']] ∧
    lfLines "a\rb".data = [['a', '\r', 'b']] ∧
    fileLines "a\rb".data ≠ lfLines "a\rb".data := by
  decide

/-- C5 amended: the program splits on Python's universal line boundaries
(LF, CR, CRLF, VT, FF, FS, GS, RS, NEL, LS, PS), one string per line
with no trailing empty line for a terminating boundary; for content
whose only line-boundary characters are line feeds this coincides with
line-feed-delimited splitting. -/
theorem C5_only_lf_split_agrees (content : List Char)
    (h : ∀ c ∈ content, isLineBreak c = true → c = '\n') :
    fileLines content = lfLines content :=
  fileLines_eq_lfLines content h

theorem C5_only_lf_split_agrees_witness :
    fileLines "ab\ncd".data = lfLines "ab\ncd".data :=
  C5_only_lf_split_agrees _ (by decide)

/-- C6: whenever the scan has found a start index, the final indices
satisfy start ≤ end ≤ number of lines. -/
theorem C6_index_invariant (lines : List (List Char)) (s : Nat)
    (h : startIndexOpt lines = some s) :
    s ≤ endIndex lines ∧ endIndex lines ≤ lines.length := by
  obtain ⟨B1, B2⟩ := scan_bounds lines 0 none (fun a ha => by cases ha)
  have hfst : (scan lines 0 none).1 = some s := h
  cases hE : (scan lines 0 none).2 with
  | none =>
    have hend : endIndex lines = lines.length := by
      simp [endIndex, scanResult, hE]
    have hs := B1 s hfst
    rw [hend]
    omega
  | some b =>
    obtain ⟨a, ha, hab, hblen⟩ := B2 b hE
    have has : a = s := by
      rw [hfst] at ha
      exact (Option.some.inj ha).symm
    have hend : endIndex lines = b := by
      simp [endIndex, scanResult, hE]
    rw [hend]
    omega

theorem C6_index_invariant_witness :
    0 ≤ endIndex ["static async writeLog".data] ∧
    endIndex ["static async writeLog".data] ≤
      (["static async writeLog".data] : List (List Char)).length :=
  C6_index_invariant _ 0 (by decide)

/-- C7: once the start has been found, a line made of leading whitespace
followed by text beginning with `static async writeLogs` passes the end
test (the check is on the stripped line) and is taken as the end
boundary, stopping the scan there. -/
theorem C7_trimmed_end_recognized (ws txt : List Char)
    (hws : ∀ c ∈ ws, isPySpace c = true) (htxt : endMark <+: txt) :
    isEndLine (ws ++ txt) = true ∧
    ∀ (i s : Nat) (rest : List (List Char)),
      scan ((ws ++ txt) :: rest) i (some s) = (some s, some i) := by
  have h1 := isEndLine_ws_append ws txt hws htxt
  exact ⟨h1, fun i s rest => scan_cons_end _ rest i s h1⟩

theorem C7_trimmed_end_recognized_witness :
    isEndLine ("  ".data ++ "static async writeLogs() \x7b".data) = true ∧
    ∀ (i s : Nat) (rest : List (List Char)),
      scan (("  ".data ++ "static async writeLogs() \x7b".data) :: rest)
        i (some s) = (some s, some i) :=
  C7_trimmed_end_recognized _ _ (by decide) (by decide)

/-- C8: when `Logger.js` is absent or unreadable, `read_text()` raises
and the unhandled exception terminates the script before the `print`:
the run is an error and no extracted output is produced. -/
theorem C8_missing_file_error :
    runProgram none = Except.error PyErr.fileNotFound := rfl

/-- C9 (implicit): once a start index `s` is set, the end index is
strictly greater, so the extracted block is the start line followed by
the remaining sliced lines — in particular it is non-empty and the start
line is never taken as the end boundary. -/
theorem C9_block_starts_at_start_line (lines : List (List Char)) (s : Nat)
    (h : startIndexOpt lines = some s) :
    s < endIndex lines ∧
    extractedBlock lines =
      lines.getD s [] :: ((lines.take (endIndex lines)).drop (s + 1)) ∧
    extractedBlock lines ≠ [] := by
  obtain ⟨B1, B2⟩ := scan_bounds lines 0 none (fun a ha => by cases ha)
  have hfst : (scan lines 0 none).1 = some s := h
  have hslen : s < lines.length := by
    have := B1 s hfst
    omega
  have hlt : s < endIndex lines := by
    cases hE : (scan lines 0 none).2 with
    | none =>
      have hend : endIndex lines = lines.length := by
        simp [endIndex, scanResult, hE]
      omega
    | some b =>
      obtain ⟨a, ha, hab, _⟩ := B2 b hE
      have has : a = s := by
        rw [hfst] at ha
        exact (Option.some.inj ha).symm
      have hend : endIndex lines = b := by
        simp [endIndex, scanResult, hE]
      omega
  have hblock : extractedBlock lines =
      (lines.take (endIndex lines)).drop s := by
    simp [extractedBlock, pySlice, h]
  have hlen_take : s < (lines.take (endIndex lines)).length := by
    rw [List.length_take]
    omega
  have hcons := drop_eq_getD_cons [] (lines.take (endIndex lines)) s hlen_take
  have hgetD : (lines.take (endIndex lines)).getD s [] = lines.getD s [] :=
    getD_take [] lines (endIndex lines) s hlt
  refine ⟨hlt, ?_, ?_⟩
  · rw [hblock, hcons, hgetD]
  · rw [hblock, hcons]
    simp

theorem C9_block_starts_at_start_line_witness :
    0 < endIndex ["static async writeLog".data, ['x']] ∧
    extractedBlock ["static async writeLog".data, ['x']] =
      (["static async writeLog".data, ['x']] :
        List (List Char)).getD 0 [] ::
      (((["static async writeLog".data, ['x']] :
        List (List Char)).take
          (endIndex ["static async writeLog".data, ['x']])).drop (0 + 1)) ∧
    extractedBlock ["static async writeLog".data, ['x']] ≠ [] :=
  C9_block_starts_at_start_line _ 0 (by decide)

/-- C10 (implicit): every line passing the end test also contains the
start substring, so such a line occurring while `start` is unset becomes
the start, not the end; and structurally the loop only ever sets `end`
when `start` is already set. -/
theorem C10_end_requires_start :
    (∀ line : List Char, isEndLine line = true → containsStart line = true) ∧
    (∀ lines : List (List Char),
      ((scanResult lines).2).isSome = true →
      ((scanResult lines).1).isSome = true) :=
  ⟨containsStart_of_isEndLine,
   fun lines hl => scan_snd_isSome lines 0 none hl⟩

theorem C10_end_requires_start_witness :
    containsStart "  static async writeLogs() \x7b".data = true :=
  C10_end_requires_start.1 _ (by decide)

end Script
